import Mathlib

/-!
Verification development for the deepcontext ingestion and chunking engine
(`engine/core/ingest.py`).  Text is modelled as `List Char`; Python string
operations (`strip`, `split`, slicing) are given explicit definitions with
Python semantics.  The chunker (`TextProcessor`) and the directory scanner
(`FileScanner`) are embedded as pure functions; filesystem effects are
modelled by an explicit `FS` record (stat/read results as `Option`, raised
exceptions as `none`).
-/

set_option maxRecDepth 20000
set_option maxHeartbeats 1000000

namespace Ingest

/-- Text is a list of characters (Python `str`). -/
abbrev Text := List Char

/-- Python whitespace class used by `str.strip` and `\s` (ASCII part). -/
def isPySpace (c : Char) : Bool :=
  c = ' ' || c = '\t' || c = '\n' || c = '\r' || c = '\x0b' || c = '\x0c'

/-- All characters of the list are whitespace. -/
def allWS (s : Text) : Prop := ∀ c ∈ s, isPySpace c = true

instance (s : Text) : Decidable (allWS s) := by
  unfold allWS; infer_instance

/-- Python `s.strip()`: drop whitespace from both ends. -/
def pyStrip (s : Text) : Text :=
  (((s.dropWhile isPySpace).reverse).dropWhile isPySpace).reverse

/-- Python `s[-n:]`: the last `n` characters; for `n = 0` the slice `[-0:]`
is `[0:]`, i.e. the whole string. -/
def pyTakeLast (n : Nat) (s : Text) : Text :=
  if n = 0 then s else s.drop (s.length - n)

/-- The separator `"\n\n"`. -/
def nlnl : Text := ['\n', '\n']

/-- Join a list of texts with a separator (Python `sep.join`). -/
def joinSep (sep : Text) : List Text → Text
  | [] => []
  | [t] => t
  | t :: ts => t ++ sep ++ joinSep sep ts

/-- Python `"\n".join`. -/
def joinNl (ts : List Text) : Text := joinSep ['\n'] ts

/-- Python `text.split("\n")`. -/
def splitNl : Text → List Text
  | [] => [[]]
  | c :: rest =>
    if c = '\n' then [] :: splitNl rest
    else
      match splitNl rest with
      | [] => [[c]]
      | t :: ts => (c :: t) :: ts

/-- Python `text.split("\n\n")` (leftmost, non-overlapping). -/
def splitNlNl : Text → List Text
  | [] => [[]]
  | [c] => [[c]]
  | c1 :: c2 :: rest =>
    if c1 = '\n' ∧ c2 = '\n' then [] :: splitNlNl rest
    else
      match splitNlNl (c2 :: rest) with
      | [] => [[c1]]
      | t :: ts => (c1 :: t) :: ts

/-- Coerce a Lean string literal to `Text`. -/
def strT (s : String) : Text := s.data

/-- Chunker configuration (`TextProcessor.__init__`): `chunk_size`,
`overlap`, `min_chunk_size`. -/
structure TextProcessor where
  chunk_size : Nat
  overlap : Nat
  min_chunk_size : Nat
deriving DecidableEq

/-- Chunk-level metadata: `{}` for generic chunks, or
`{heading, start_line, end_line}` for markdown chunks. -/
inductive ChunkMeta where
  | plain : ChunkMeta
  | md (heading : Text) (start_line : Nat) (end_line : Nat) : ChunkMeta
deriving DecidableEq

/-- The heading field of the metadata, when present. -/
def ChunkMeta.headingOf : ChunkMeta → Option Text
  | .plain => Option.none
  | .md h _ _ => some h

/-- A chunk as produced by `TextProcessor`. -/
structure Chunk where
  content : Text
  chunk_index : Nat
  metadata : ChunkMeta
deriving DecidableEq

/-- Loop body of `TextProcessor._split_large_chunk` (ingest.py lines
153-171): fold over the paragraphs, carrying the running buffer and the
chunks accumulated so far. -/
def splitLargeGo (tp : TextProcessor) : List Text → Text → List Text → List Text
  | [], cur, acc => if pyStrip cur ≠ [] then acc ++ [pyStrip cur] else acc
  | para :: rest, cur, acc =>
    if cur.length + para.length > tp.chunk_size ∧ cur ≠ [] then
      splitLargeGo tp rest
        (if tp.overlap < cur.length then pyTakeLast tp.overlap cur ++ nlnl ++ para else para)
        (acc ++ [pyStrip cur])
    else
      splitLargeGo tp rest (if cur = [] then para else cur ++ nlnl ++ para) acc

/-- Model of `TextProcessor._split_large_chunk`. -/
def split_large_chunk (tp : TextProcessor) (text : Text) : List Text :=
  splitLargeGo tp (splitNlNl text) [] []

/-- The buffer obtained by running only the else-branch (accumulation) of
the `_split_large_chunk` loop from buffer `cur` over the remaining
paragraphs; used to relate the loop to the original text. -/
def jn (cur : Text) : List Text → Text
  | [] => cur
  | p :: rest => jn (if cur = [] then p else cur ++ nlnl ++ p) rest

/-- One step of `TextProcessor._add_overlap` (lines 176-180): prepend the
trailing `overlap` characters of `prev` and a blank line when
`len(prev) > overlap`, else leave the chunk alone. -/
def overlapMod (tp : TextProcessor) (prev : Text) (c : Chunk) : Chunk :=
  if tp.overlap < prev.length
  then { c with content := pyTakeLast tp.overlap prev ++ nlnl ++ c.content }
  else c

/-- Loop of `TextProcessor._add_overlap` (lines 175-180): the pass mutates
`chunks[i]["content"]` in place, so the predecessor content read at step
`i` is the already-modified one; `prev` threads that value. -/
def addOverlapGo (tp : TextProcessor) : Text → List Chunk → List Chunk
  | _, [] => []
  | prev, c :: rest =>
    overlapMod tp prev c :: addOverlapGo tp (overlapMod tp prev c).content rest

/-- Model of `TextProcessor._add_overlap`: no-op on lists of length `≤ 1`, otherwise
the first chunk is kept and each later chunk may get a prefix from its
(modified) predecessor. -/
def add_overlap (tp : TextProcessor) : List Chunk → List Chunk
  | [] => []
  | [c] => [c]
  | c :: rest => c :: addOverlapGo tp c.content rest

/-- Model of `TextProcessor._chunk_generic` before its final `_add_overlap` call
(lines 136-149): empty-on-blank guard, split into sub-chunks, enumerate. -/
def chunk_generic_raw (tp : TextProcessor) (text : Text) : List Chunk :=
  if pyStrip text = [] then []
  else (split_large_chunk tp text).enum.map
    (fun p => { content := p.2, chunk_index := p.1, metadata := ChunkMeta.plain })

/-- Model of `TextProcessor._chunk_generic` (lines 136-151). -/
def chunk_generic (tp : TextProcessor) (text : Text) : List Chunk :=
  add_overlap tp (chunk_generic_raw tp text)

/-- Number of leading `#` characters of a line. -/
def countLeadingHashes (s : Text) : Nat := (s.takeWhile (fun c => c = '#')).length

/-- Model of the Python heading-pattern match of line 61 applied to a line
containing no newline: 1 to 6 leading hash marks, then at least one
whitespace character, then at least one further character. -/
def isHeading (line : Text) : Bool :=
  let k := countLeadingHashes line
  let r := line.drop k
  decide (1 ≤ k) && decide (k ≤ 6) &&
    (match r with
     | [] => false
     | c :: rest => isPySpace c && decide (rest ≠ []))

/-- Mutable state of the `_chunk_markdown` line loop (lines 60-67).
Note: when the oversized flush fires on all-whitespace accumulated text,
`split_large_chunk` is empty and the Python source raises
`ZeroDivisionError` at `lines_in_chunk // len(sub_chunks)`; the model
totalises that division (no claim below touches that input region). -/
structure MdState where
  chunks : List Chunk
  current : List Text
  heading : Text
  idx : Nat
  startLine : Nat
deriving DecidableEq

/-- One iteration of the `_chunk_markdown` loop (lines 69-116) at 1-based
line index `lineIdx`. -/
def mdStep (tp : TextProcessor) (st : MdState) (lineIdx : Nat) (line : Text) : MdState :=
  if isHeading line then
    let ct := pyStrip (joinNl st.current)
    let st1 := if tp.min_chunk_size ≤ ct.length then
        { st with
          chunks := st.chunks ++
            [{ content := ct, chunk_index := st.idx,
               metadata := ChunkMeta.md st.heading st.startLine (lineIdx - 1) }],
          idx := st.idx + 1 }
      else st
    { st1 with heading := pyStrip line, current := [line], startLine := lineIdx }
  else
    let cur := st.current ++ [line]
    if (joinNl cur).length > tp.chunk_size * 2 then
      let ct := pyStrip (joinNl cur)
      let subs := split_large_chunk tp ct
      let lpc := max 1 (cur.length / subs.length)
      let newChunks := subs.enum.map (fun p =>
        { content := p.2, chunk_index := st.idx + p.1,
          metadata := ChunkMeta.md st.heading (st.startLine + p.1 * lpc)
            (min (st.startLine + (p.1 + 1) * lpc - 1) lineIdx) })
      { st with chunks := st.chunks ++ newChunks, idx := st.idx + subs.length,
                current := [], startLine := lineIdx + 1 }
    else { st with current := cur }

/-- The `enumerate(lines, start=1)` loop of `_chunk_markdown`. -/
def mdLoop (tp : TextProcessor) : List Text → Nat → MdState → MdState
  | [], _, st => st
  | line :: rest, lineIdx, st => mdLoop tp rest (lineIdx + 1) (mdStep tp st lineIdx line)

/-- Final flush of `_chunk_markdown` (lines 118-130): emit the trailing
accumulated chunk if it meets the minimum size; `numLines` is `len(lines)`. -/
def mdFinal (tp : TextProcessor) (numLines : Nat) (st : MdState) : List Chunk :=
  if tp.min_chunk_size ≤ (pyStrip (joinNl st.current)).length then
    st.chunks ++
      [{ content := pyStrip (joinNl st.current), chunk_index := st.idx,
         metadata := ChunkMeta.md st.heading st.startLine numLines }]
  else st.chunks

/-- Model of `TextProcessor._chunk_markdown` before its final `_add_overlap` call
(lines 56-131): run the loop over the lines, then the final flush. -/
def chunk_markdown_raw (tp : TextProcessor) (text : Text) : List Chunk :=
  mdFinal tp (splitNl text).length
    (mdLoop tp (splitNl text) 1
      { chunks := [], current := [], heading := strT "Introduction", idx := 0, startLine := 1 })

/-- Model of `TextProcessor._chunk_markdown` (lines 56-134). -/
def chunk_markdown (tp : TextProcessor) (text : Text) : List Chunk :=
  add_overlap tp (chunk_markdown_raw tp text)

/-- Model of `TextProcessor.chunk_content` (lines 45-54): dispatch on whether the
file extension is `.md`/`.markdown`; the metadata argument is ignored by
the source as well. -/
def chunk_content (tp : TextProcessor) (content : Text) (isMd : Bool) : List Chunk :=
  if isMd then chunk_markdown tp content else chunk_generic tp content

/-! ### FileScanner model

File paths are an abstract identity key (the source uses strings purely as
dictionary keys); we use `Nat`.  Filesystem effects of one ingestion run
are modelled by a record `FS`: `stat`/`read` return `none` where the Python
call raises, `rawContents` is the (deterministic) result of
`load_file_content`, and `hashFn` is the md5 digest function — streaming
md5 over 4096-byte blocks equals hashing the whole content, so the digest
is applied to the full content. -/

/-- Abstract file path. -/
abbrev Path := Nat

/-- Result of `Path.stat()`. -/
structure Stat where
  size : Nat
  mtime : Int
deriving DecidableEq

/-- The `FileInfo` dataclass (ingest.py lines 23-30). -/
structure FileInfo where
  path : Path
  size : Nat
  mtime : Int
  hash : Nat
deriving DecidableEq

/-- Segment-level metadata of `load_file_content` (`page_label` for PDF
pages, empty otherwise). -/
inductive SegMeta where
  | noPage : SegMeta
  | page (n : Nat) : SegMeta
deriving DecidableEq

/-- One raw content part returned by `load_file_content`. -/
structure RawSeg where
  content : Text
  metadata : SegMeta
deriving DecidableEq

/-- The filesystem as observed during one ingestion run. -/
structure FS where
  rootExists : Bool
  rootIsDir : Bool
  files : List Path
  stat : Path → Option Stat
  read : Path → Option Text
  rawContents : Path → List RawSeg
  hashFn : Text → Nat
  isMd : Path → Bool

/-- State table `FileScanner.index_state` mapping a path to a `FileInfo`. -/
def IndexState := Path → Option FileInfo

/-- Assignment of `fi` to the index state at `path`. -/
def updateState (st : IndexState) (p : Path) (fi : FileInfo) : IndexState :=
  fun q => if q = p then some fi else st q

/-- Model of `FileScanner.get_file_info` (lines 210-229): `path.stat()` raises
outside any try block (`none` propagates); the md5 read is wrapped in
`try/except Exception: pass`, so a read failure leaves the digest at the
empty-stream value and the function still returns normally. -/
def get_file_info (fs : FS) (p : Path) : Option FileInfo :=
  match fs.stat p with
  | Option.none => Option.none
  | some st =>
    some { path := p, size := st.size, mtime := st.mtime,
           hash := match fs.read p with
                   | some content => fs.hashFn content
                   | Option.none => fs.hashFn [] }

/-- Classification of a scanned file. -/
inductive FileClass where
  | isNew : FileClass
  | isUpdated : FileClass
  | isUnchanged : FileClass
deriving DecidableEq

/-- The change-detection branch of `ingest_directory` (lines 332-344). -/
def classify_file (force : Bool) (state : IndexState) (fi : FileInfo) : FileClass :=
  if force then .isNew
  else
    match state fi.path with
    | Option.none => .isNew
    | some old =>
      if fi.mtime > old.mtime ∨ fi.hash ≠ old.hash then .isUpdated else .isUnchanged

/-- First loop of `ingest_directory` (lines 329-347): per path, the whole
body sits in `try/except`, and only `get_file_info` can raise, so a `stat`
failure leaves every accumulator untouched.  Returns
`(files_to_process, new_count, updated_count, skipped_count)`. -/
def classify_pass (fs : FS) (force : Bool) (state : IndexState) :
    List Path → List FileInfo × Nat × Nat × Nat
  | [] => ([], 0, 0, 0)
  | p :: rest =>
    let r := classify_pass fs force state rest
    match get_file_info fs p with
    | Option.none => r
    | some fi =>
      match classify_file force state fi with
      | .isNew => (fi :: r.1, r.2.1 + 1, r.2.2.1, r.2.2.2)
      | .isUpdated => (fi :: r.1, r.2.1, r.2.2.1 + 1, r.2.2.2)
      | .isUnchanged => (r.1, r.2.1, r.2.2.1, r.2.2.2 + 1)

/-- Merged per-document metadata (lines 373-378): file-level fields, then
segment metadata, then chunk metadata; the key sets are disjoint, so the
merge is a product. -/
structure DocMeta where
  file_size : Nat
  file_mtime : Int
  seg : SegMeta
  chunkMeta : ChunkMeta
deriving DecidableEq

/-- One record of the batch handed to `db_manager.add_documents`. -/
structure DocRecord where
  content : Text
  file_path : Path
  chunk_index : Nat
  metadata : DocMeta
deriving DecidableEq

/-- Second loop of `ingest_directory` (lines 353-387): files whose
extraction yields no raw content are skipped *without* updating
`index_state`; otherwise every chunk of every segment is appended with a
batch-global index and `index_state[path]` is set afterwards. -/
def process_files (tp : TextProcessor) (fs : FS) :
    List FileInfo → List DocRecord → IndexState → List DocRecord × IndexState
  | [], acc, state => (acc, state)
  | fi :: rest, acc, state =>
    let raw := fs.rawContents fi.path
    if raw = [] then process_files tp fs rest acc state
    else
      let acc2 := raw.foldl (fun a seg =>
        (chunk_content tp seg.content (fs.isMd fi.path)).foldl (fun a2 c =>
          a2 ++ [{ content := c.content, file_path := fi.path, chunk_index := a2.length,
                   metadata := { file_size := fi.size, file_mtime := fi.mtime,
                                 seg := seg.metadata, chunkMeta := c.metadata } }]) a) acc
      process_files tp fs rest acc2 (updateState state fi.path fi)

/-- Model of `FileScanner.scan_directory` (lines 195-208): empty unless the root
exists and is a directory; the glob enumeration itself is part of the
filesystem model. -/
def scan_directory (fs : FS) : List Path :=
  if fs.rootExists ∧ fs.rootIsDir then fs.files else []

/-- The stats dictionary returned by `ingest_directory`. -/
structure IngestStats where
  total_files : Nat
  new_files : Nat
  updated_files : Nat
  skipped_files : Nat
  total_chunks : Nat
deriving DecidableEq

/-- Result of one `ingest_directory` run: the returned stats, the
`index_state` after the run, and the batch passed to storage. -/
structure IngestResult where
  stats : IngestStats
  state : IndexState
  batch : List DocRecord

/-- Model of `FileScanner.ingest_directory` (lines 315-398): early return on an
empty scan, early return with zero chunks when nothing is to process, else
process and hand the batch to storage. -/
def ingest_directory (tp : TextProcessor) (fs : FS) (state : IndexState)
    (force : Bool) : IngestResult :=
  if scan_directory fs = [] then
    { stats := ⟨0, 0, 0, 0, 0⟩, state := state, batch := [] }
  else if (classify_pass fs force state (scan_directory fs)).1 = [] then
    { stats := ⟨(scan_directory fs).length,
        (classify_pass fs force state (scan_directory fs)).2.1,
        (classify_pass fs force state (scan_directory fs)).2.2.1,
        (classify_pass fs force state (scan_directory fs)).2.2.2, 0⟩,
      state := state, batch := [] }
  else
    { stats := ⟨(scan_directory fs).length,
        (classify_pass fs force state (scan_directory fs)).2.1,
        (classify_pass fs force state (scan_directory fs)).2.2.1,
        (classify_pass fs force state (scan_directory fs)).2.2.2,
        (process_files tp fs (classify_pass fs force state (scan_directory fs)).1 [] state).1.length⟩,
      state := (process_files tp fs (classify_pass fs force state (scan_directory fs)).1 [] state).2,
      batch := (process_files tp fs (classify_pass fs force state (scan_directory fs)).1 [] state).1 }

/-! ### Concrete instances used in the theorems below -/

/-- The default `TextProcessor()` configuration. -/
def tpDefault : TextProcessor := ⟨500, 50, 100⟩

/-- The configuration of the C8 scenario. -/
def tp8 : TextProcessor := ⟨100, 50, 20⟩

/-- The markdown text of the C8 scenario. -/
def text8 : Text := strT "# A\n\nshort\n\n## B\n\n" ++ List.replicate 300 'x'

/-- A small configuration exhibiting an undersized generic chunk. -/
def tpC1 : TextProcessor := ⟨10, 2, 5⟩

/-- Input whose generic chunking emits a 2-character chunk. -/
def textC1 : Text := strT "ab\n\ncccccccccccc"

/-- A configuration with `overlap = 4` for the overlap-pass analysis. -/
def tpC2 : TextProcessor := ⟨100, 4, 1⟩

/-- Markdown input whose middle heading section is shorter than `overlap`. -/
def textC2 : Text := strT "# aaa\n# b\n# cc\nrest"

/-- A 6-character chunk. -/
def chunkA : Chunk := ⟨strT "aaaaaa", 0, ChunkMeta.plain⟩

/-- A 1-character chunk with markdown metadata. -/
def chunkB : Chunk := ⟨strT "b", 1, ChunkMeta.md (strT "# h") 2 3⟩

/-- Value of `chunkB` after the overlap pass behind `chunkA` with `tpC1`. -/
def chunkB2 : Chunk :=
  ⟨pyTakeLast tpC1.overlap chunkA.content ++ nlnl ++ chunkB.content,
   chunkB.chunk_index, chunkB.metadata⟩

/-- A filesystem whose root does not exist. -/
def fsEmpty : FS :=
  { rootExists := false, rootIsDir := true, files := [],
    stat := fun _ => Option.none, read := fun _ => Option.none,
    rawContents := fun _ => [], hashFn := fun t => t.length,
    isMd := fun _ => false }

/-- The empty index state. -/
def stEmpty : IndexState := fun _ => Option.none

/-- A filesystem with one file whose content read fails (`stat` succeeds). -/
def fsReadFail : FS :=
  { rootExists := true, rootIsDir := true, files := [0],
    stat := fun _ => some ⟨7, 3⟩, read := fun _ => Option.none,
    rawContents := fun _ => [], hashFn := fun t => t.length,
    isMd := fun _ => false }

/-- Stat of the one file of `fsUnch`. -/
def statU : Stat := ⟨5, 10⟩

/-- A healthy filesystem with one readable text file. -/
def fsUnch : FS :=
  { rootExists := true, rootIsDir := true, files := [0],
    stat := fun _ => some statU, read := fun _ => some (strT "hi"),
    rawContents := fun _ => [⟨strT "hi", SegMeta.noPage⟩],
    hashFn := fun t => t.length, isMd := fun _ => false }

/-- The fingerprint of `fsUnch`'s file. -/
def fiU : FileInfo := ⟨0, 5, 10, 2⟩

/-- An index state already holding `fsUnch`'s file unchanged. -/
def stU : IndexState := fun q => if q = 0 then some fiU else Option.none

/-- A filesystem with one statable file whose extraction yields nothing. -/
def fsEmptyRaw : FS :=
  { rootExists := true, rootIsDir := true, files := [0],
    stat := fun _ => some statU, read := fun _ => some [],
    rawContents := fun _ => [], hashFn := fun t => t.length,
    isMd := fun _ => false }

/-! ### Whitespace and strip lemmas -/

theorem allWS_nlnl : allWS nlnl := by
  intro c hc
  simp [nlnl] at hc
  simp [hc, isPySpace]

theorem allWS_append : allWS (a ++ b) ↔ allWS a ∧ allWS b := by
  simp [allWS, List.mem_append, or_imp, forall_and]

theorem allWS_reverse : allWS s.reverse ↔ allWS s := by
  simp [allWS]

theorem dropWhile_ws_append (hw : allWS w) :
    List.dropWhile isPySpace (w ++ s) = List.dropWhile isPySpace s := by
  induction w with
  | nil => simp
  | cons c w ih =>
    have hc : isPySpace c = true := hw c (by simp)
    have hw2 : allWS w := fun x hx => hw x (by simp [hx])
    simp [List.dropWhile, hc, ih hw2]

theorem dropWhile_append_of_ne (h : List.dropWhile p a ≠ []) :
    List.dropWhile p (a ++ b) = List.dropWhile p a ++ b := by
  induction a with
  | nil => simp [List.dropWhile] at h
  | cons c a ih =>
    by_cases hc : p c = true
    · simp only [List.dropWhile, hc] at h ⊢
      simpa using ih (by simpa using h)
    · simp [List.dropWhile, hc]

theorem dropWhile_eq_nil_iff_allWS :
    List.dropWhile isPySpace s = [] ↔ allWS s := by
  induction s with
  | nil => simp [allWS]
  | cons c s ih =>
    by_cases hc : isPySpace c = true
    · rw [List.dropWhile_cons, if_pos hc, ih]
      constructor
      · intro h x hx
        rcases List.mem_cons.mp hx with h1 | h1
        · exact h1 ▸ hc
        · exact h x h1
      · intro h x hx
        exact h x (by simp [hx])
    · rw [List.dropWhile_cons, if_neg hc]
      simp only [List.cons_ne_nil, false_iff]
      intro h
      exact hc (h c (by simp))

theorem allWS_dropWhile : allWS (List.dropWhile isPySpace s) ↔ allWS s := by
  constructor
  · intro h x hx
    have hx2 : x ∈ List.takeWhile isPySpace s ++ List.dropWhile isPySpace s := by
      rw [List.takeWhile_append_dropWhile]; exact hx
    rcases List.mem_append.mp hx2 with h1 | h2
    · exact List.mem_takeWhile_imp h1
    · exact h x h2
  · intro h x hx
    exact h x ((List.dropWhile_sublist isPySpace).subset hx)

theorem pyStrip_eq_nil_iff : pyStrip s = [] ↔ allWS s := by
  unfold pyStrip
  rw [List.reverse_eq_nil_iff, dropWhile_eq_nil_iff_allWS, allWS_reverse,
    allWS_dropWhile]

theorem pyStrip_ws_left (hw : allWS w) : pyStrip (w ++ s) = pyStrip s := by
  unfold pyStrip
  rw [dropWhile_ws_append hw]

theorem pyStrip_ws_right (hw : allWS w) : pyStrip (s ++ w) = pyStrip s := by
  by_cases h : List.dropWhile isPySpace s = []
  · have hs : allWS s := dropWhile_eq_nil_iff_allWS.mp h
    rw [pyStrip_eq_nil_iff.mpr (allWS_append.mpr ⟨hs, hw⟩), pyStrip_eq_nil_iff.mpr hs]
  · unfold pyStrip
    rw [dropWhile_append_of_ne h, List.reverse_append,
      dropWhile_ws_append (allWS_reverse.mpr hw)]

/-! ### joinSep / split lemmas -/

theorem joinSep_cons₂ (sep a b : Text) (l : List Text) :
    joinSep sep (a :: b :: l) = a ++ sep ++ joinSep sep (b :: l) := rfl

theorem joinSep_head_append (sep a b : Text) (ts : List Text) :
    joinSep sep ((a ++ b) :: ts) = a ++ joinSep sep (b :: ts) := by
  cases ts with
  | nil => simp [joinSep]
  | cons t ts => simp [joinSep_cons₂, List.append_assoc]

theorem joinSep_cons_cons :
    joinSep sep ((c :: t) :: ts) = c :: joinSep sep (t :: ts) := by
  have := joinSep_head_append sep [c] t ts
  simpa using this

theorem allWS_joinSep (hsep : allWS sep) (h : ∀ t ∈ ts, allWS t) :
    allWS (joinSep sep ts) := by
  induction ts with
  | nil => intro c hc; simp [joinSep] at hc
  | cons t ts ih =>
    cases ts with
    | nil => simpa [joinSep] using h t (by simp)
    | cons u us =>
      rw [joinSep_cons₂]
      refine allWS_append.mpr ⟨allWS_append.mpr ⟨h t (by simp), hsep⟩, ?_⟩
      exact ih (fun x hx => h x (List.mem_cons_of_mem t hx))

theorem allWS_of_joinSep (h : allWS (joinSep sep (t :: ts))) :
    allWS t ∧ ∀ r ∈ ts, allWS r := by
  induction ts generalizing t with
  | nil => simpa [joinSep] using h
  | cons u us ih =>
    rw [joinSep_cons₂] at h
    rcases allWS_append.mp h with ⟨h1, h2⟩
    rcases allWS_append.mp h1 with ⟨ht, _⟩
    rcases ih h2 with ⟨hu, hus⟩
    refine ⟨ht, ?_⟩
    intro r hr
    rcases List.mem_cons.mp hr with h | h
    · exact h ▸ hu
    · exact hus r h

theorem joinSep_length_le :
    (joinSep sep xs).length ≤ (joinSep sep (xs ++ ys)).length := by
  cases ys with
  | nil => simp
  | cons y ys =>
    induction xs with
    | nil => simp [joinSep]
    | cons x xs ih =>
      cases xs with
      | nil =>
        simp only [List.nil_append, List.cons_append, joinSep_cons₂, joinSep]
        simp [List.length_append]
      | cons x2 xs2 =>
        simp only [List.cons_append] at ih ⊢
        rw [joinSep_cons₂, joinSep_cons₂]
        simp only [List.length_append]
        omega

/-- Unfolding equation for `splitNl` on a cons cell. -/
theorem splitNl_cons (c : Char) (rest : Text) :
    splitNl (c :: rest) =
      if c = '\n' then [] :: splitNl rest
      else match splitNl rest with
        | [] => [[c]]
        | t :: ts => (c :: t) :: ts := rfl

theorem splitNl_ne_nil : splitNl t ≠ [] := by
  cases t with
  | nil => simp [splitNl]
  | cons c rest =>
    rw [splitNl_cons]
    by_cases hc : c = '\n'
    · simp [hc]
    · simp only [hc, if_false]
      cases splitNl rest <;> simp

theorem splitNl_join : joinNl (splitNl t) = t := by
  induction t with
  | nil => rfl
  | cons c rest ih =>
    obtain ⟨u, us, hu⟩ : ∃ u us, splitNl rest = u :: us := by
      cases h : splitNl rest with
      | nil => exact absurd h splitNl_ne_nil
      | cons u us => exact ⟨u, us, rfl⟩
    rw [hu] at ih
    by_cases hc : c = '\n'
    · subst hc
      rw [splitNl_cons, if_pos rfl, hu]
      unfold joinNl at ih ⊢
      rw [joinSep_cons₂, ih]
      rfl
    · rw [splitNl_cons, if_neg hc, hu]
      show joinNl ((c :: u) :: us) = c :: rest
      unfold joinNl at ih ⊢
      rw [joinSep_cons_cons, ih]

/-- Unfolding equation for `splitNlNl` on a two-cons cell. -/
theorem splitNlNl_cons₂ (c1 c2 : Char) (rest : Text) :
    splitNlNl (c1 :: c2 :: rest) =
      if c1 = '\n' ∧ c2 = '\n' then [] :: splitNlNl rest
      else match splitNlNl (c2 :: rest) with
        | [] => [[c1]]
        | t :: ts => (c1 :: t) :: ts := rfl

theorem splitNlNl_ne_nil : splitNlNl t ≠ [] := by
  cases t with
  | nil => simp [splitNlNl]
  | cons c1 rest =>
    cases rest with
    | nil => simp [splitNlNl]
    | cons c2 rest2 =>
      rw [splitNlNl_cons₂]
      by_cases hc : c1 = '\n' ∧ c2 = '\n'
      · simp [hc]
      · simp only [if_neg hc]
        cases splitNlNl (c2 :: rest2) <;> simp

theorem splitNlNl_join : joinSep nlnl (splitNlNl t) = t := by
  induction t using splitNlNl.induct with
  | case1 => rfl
  | case2 c => rfl
  | case3 c1 c2 rest hc ih =>
    obtain ⟨u, us, hu⟩ : ∃ u us, splitNlNl rest = u :: us := by
      cases h : splitNlNl rest with
      | nil => exact absurd h splitNlNl_ne_nil
      | cons u us => exact ⟨u, us, rfl⟩
    rw [hu] at ih
    rw [splitNlNl_cons₂, if_pos hc, hu, joinSep_cons₂, ih]
    rw [hc.1, hc.2]
    rfl
  | case4 c1 c2 rest hc hnil ih =>
    exact absurd hnil splitNlNl_ne_nil
  | case5 c1 c2 rest hc u us hu ih =>
    rw [hu] at ih
    rw [splitNlNl_cons₂, if_neg hc, hu]
    show joinSep nlnl ((c1 :: u) :: us) = c1 :: c2 :: rest
    rw [joinSep_cons_cons, ih]

/-! ### split_large_chunk lemmas -/

theorem jn_strip (l : List Text) (cur : Text) :
    pyStrip (jn cur l) = pyStrip (joinSep nlnl (cur :: l)) := by
  induction l generalizing cur with
  | nil => rfl
  | cons p rest ih =>
    show pyStrip (jn (if cur = [] then p else cur ++ nlnl ++ p) rest) = _
    by_cases hcur : cur = []
    · rw [if_pos hcur, ih p, hcur]
      rw [joinSep_cons₂ nlnl ([] : Text) p rest, List.nil_append,
        pyStrip_ws_left allWS_nlnl]
    · rw [if_neg hcur, ih]
      congr 1
      rw [joinSep_head_append, joinSep_cons₂]

/-- Unfolding equation for `splitLargeGo` on a cons cell. -/
theorem splitLargeGo_cons (tp : TextProcessor) (para : Text) (rest : List Text)
    (cur : Text) (acc : List Text) :
    splitLargeGo tp (para :: rest) cur acc =
      if cur.length + para.length > tp.chunk_size ∧ cur ≠ [] then
        splitLargeGo tp rest
          (if tp.overlap < cur.length then pyTakeLast tp.overlap cur ++ nlnl ++ para else para)
          (acc ++ [pyStrip cur])
      else splitLargeGo tp rest (if cur = [] then para else cur ++ nlnl ++ para) acc := rfl

theorem splitLargeGo_acc (tp : TextProcessor) (l : List Text) (cur : Text)
    (acc : List Text) :
    splitLargeGo tp l cur acc = acc ++ splitLargeGo tp l cur [] := by
  induction l generalizing cur acc with
  | nil =>
    show (if pyStrip cur ≠ [] then acc ++ [pyStrip cur] else acc)
      = acc ++ (if pyStrip cur ≠ [] then [] ++ [pyStrip cur] else [])
    by_cases h : pyStrip cur ≠ [] <;> simp [h]
  | cons para rest ih =>
    rw [splitLargeGo_cons, splitLargeGo_cons]
    by_cases h : cur.length + para.length > tp.chunk_size ∧ cur ≠ []
    · rw [if_pos h, if_pos h, List.nil_append]
      generalize (if tp.overlap < cur.length
        then pyTakeLast tp.overlap cur ++ nlnl ++ para else para) = c2
      rw [ih c2 (acc ++ [pyStrip cur]), ih c2 [pyStrip cur]]
      simp [List.append_assoc]
    · rw [if_neg h, if_neg h]
      exact ih _ acc

theorem splitLargeGo_nil_allWS (tp : TextProcessor) (l : List Text) (cur : Text)
    (h : splitLargeGo tp l cur [] = []) : allWS (jn cur l) := by
  induction l generalizing cur with
  | nil =>
    show allWS cur
    by_cases hne : pyStrip cur ≠ []
    · rw [show splitLargeGo tp [] cur [] =
        (if pyStrip cur ≠ [] then [] ++ [pyStrip cur] else []) from rfl, if_pos hne] at h
      simp at h
    · exact pyStrip_eq_nil_iff.mp (not_not.mp hne)
  | cons p rest ih =>
    rw [splitLargeGo_cons] at h
    by_cases hb : cur.length + p.length > tp.chunk_size ∧ cur ≠ []
    · rw [if_pos hb, splitLargeGo_acc, List.nil_append] at h
      simp at h
    · rw [if_neg hb] at h
      exact ih _ h

theorem splitLargeGo_singleton (tp : TextProcessor) (l : List Text) (cur : Text)
    (s : Text) (h : splitLargeGo tp l cur [] = [s]) : s = pyStrip (jn cur l) := by
  induction l generalizing cur with
  | nil =>
    show s = pyStrip cur
    by_cases hne : pyStrip cur ≠ []
    · rw [show splitLargeGo tp [] cur [] =
        (if pyStrip cur ≠ [] then [] ++ [pyStrip cur] else []) from rfl, if_pos hne] at h
      simp at h
      exact h.symm
    · rw [show splitLargeGo tp [] cur [] =
        (if pyStrip cur ≠ [] then [] ++ [pyStrip cur] else []) from rfl, if_neg hne] at h
      simp at h
  | cons p rest ih =>
    rw [splitLargeGo_cons] at h
    by_cases hb : cur.length + p.length > tp.chunk_size ∧ cur ≠ []
    · rw [if_pos hb, splitLargeGo_acc, List.nil_append, List.singleton_append] at h
      injection h with h1 h2
      have hws : allWS (jn (if tp.overlap < cur.length
          then pyTakeLast tp.overlap cur ++ nlnl ++ p else p) rest) :=
        splitLargeGo_nil_allWS tp rest _ h2
      have hws2 : allWS (joinSep nlnl ((if tp.overlap < cur.length
          then pyTakeLast tp.overlap cur ++ nlnl ++ p else p) :: rest)) := by
        rw [← pyStrip_eq_nil_iff, ← jn_strip, pyStrip_eq_nil_iff]
        exact hws
      obtain ⟨hc2, hrest⟩ := allWS_of_joinSep hws2
      have hp : allWS p := by
        by_cases hov : tp.overlap < cur.length
        · rw [if_pos hov] at hc2
          exact (allWS_append.mp hc2).2
        · rw [if_neg hov] at hc2
          exact hc2
      have hJ : allWS (joinSep nlnl (p :: rest)) := by
        refine allWS_joinSep allWS_nlnl ?_
        intro t ht
        rcases List.mem_cons.mp ht with h | h
        · exact h ▸ hp
        · exact hrest t h
      show s = pyStrip (jn (if cur = [] then p else cur ++ nlnl ++ p) rest)
      rw [if_neg hb.2, jn_strip, joinSep_head_append, List.append_assoc,
        pyStrip_ws_right (allWS_append.mpr ⟨allWS_nlnl, hJ⟩)]
      exact h1.symm
    · rw [if_neg hb] at h
      exact ih _ h

theorem split_large_chunk_singleton (tp : TextProcessor) (text : Text) (s : Text)
    (h : split_large_chunk tp text = [s]) : s = pyStrip text := by
  unfold split_large_chunk at h
  have hs := splitLargeGo_singleton tp _ _ _ h
  rw [jn_strip] at hs
  obtain ⟨u, us, hu⟩ : ∃ u us, splitNlNl text = u :: us := by
    cases hh : splitNlNl text with
    | nil => exact absurd hh splitNlNl_ne_nil
    | cons u us => exact ⟨u, us, rfl⟩
  rw [hu, joinSep_cons₂, List.nil_append, pyStrip_ws_left allWS_nlnl, ← hu,
    splitNlNl_join] at hs
  exact hs

/-! ### add_overlap lemmas -/

theorem overlapMod_chunk_index (tp : TextProcessor) (prev : Text) (c : Chunk) :
    (overlapMod tp prev c).chunk_index = c.chunk_index := by
  unfold overlapMod; split <;> rfl

theorem overlapMod_metadata (tp : TextProcessor) (prev : Text) (c : Chunk) :
    (overlapMod tp prev c).metadata = c.metadata := by
  unfold overlapMod; split <;> rfl

theorem addOverlapGo_length (tp : TextProcessor) (l : List Chunk) (prev : Text) :
    (addOverlapGo tp prev l).length = l.length := by
  induction l generalizing prev with
  | nil => rfl
  | cons c rest ih => simp [addOverlapGo, ih]

theorem add_overlap_length (tp : TextProcessor) (l : List Chunk) :
    (add_overlap tp l).length = l.length := by
  match l with
  | [] => rfl
  | [c] => rfl
  | c :: d :: rest => simp [add_overlap, addOverlapGo_length]

theorem addOverlapGo_get?_index (tp : TextProcessor) (l : List Chunk)
    (prev : Text) (i : Nat) :
    ((addOverlapGo tp prev l).get? i).map Chunk.chunk_index
      = (l.get? i).map Chunk.chunk_index := by
  induction l generalizing prev i with
  | nil => rfl
  | cons c rest ih =>
    cases i with
    | zero => simp [addOverlapGo, overlapMod_chunk_index]
    | succ n => simp only [addOverlapGo, List.get?_cons_succ]; exact ih _ _

theorem addOverlapGo_get?_meta (tp : TextProcessor) (l : List Chunk)
    (prev : Text) (i : Nat) :
    ((addOverlapGo tp prev l).get? i).map Chunk.metadata
      = (l.get? i).map Chunk.metadata := by
  induction l generalizing prev i with
  | nil => rfl
  | cons c rest ih =>
    cases i with
    | zero => simp [addOverlapGo, overlapMod_metadata]
    | succ n => simp only [addOverlapGo, List.get?_cons_succ]; exact ih _ _

theorem add_overlap_get?_index (tp : TextProcessor) (l : List Chunk) (i : Nat) :
    ((add_overlap tp l).get? i).map Chunk.chunk_index
      = (l.get? i).map Chunk.chunk_index := by
  match l with
  | [] => rfl
  | [c] => rfl
  | c :: d :: rest =>
    show ((c :: addOverlapGo tp c.content (d :: rest)).get? i).map Chunk.chunk_index = _
    cases i with
    | zero => rfl
    | succ n =>
      simp only [List.get?_cons_succ]
      exact addOverlapGo_get?_index tp (d :: rest) c.content n

theorem add_overlap_get?_meta (tp : TextProcessor) (l : List Chunk) (i : Nat) :
    ((add_overlap tp l).get? i).map Chunk.metadata
      = (l.get? i).map Chunk.metadata := by
  match l with
  | [] => rfl
  | [c] => rfl
  | c :: d :: rest =>
    show ((c :: addOverlapGo tp c.content (d :: rest)).get? i).map Chunk.metadata = _
    cases i with
    | zero => rfl
    | succ n =>
      simp only [List.get?_cons_succ]
      exact addOverlapGo_get?_meta tp (d :: rest) c.content n

theorem add_overlap_get?_zero (tp : TextProcessor) (l : List Chunk) :
    (add_overlap tp l).get? 0 = l.get? 0 := by
  match l with
  | [] => rfl
  | [c] => rfl
  | c :: d :: rest => rfl

theorem addOverlapGo_adjacent (tp : TextProcessor) (l : List Chunk) (prev : Text)
    (i : Nat) (a b c : Chunk)
    (ha : (addOverlapGo tp prev l).get? i = some a)
    (hb : (addOverlapGo tp prev l).get? (i + 1) = some b)
    (hc : l.get? (i + 1) = some c) :
    b = overlapMod tp a.content c := by
  induction l generalizing prev i with
  | nil => simp [addOverlapGo] at ha
  | cons c0 rest ih =>
    cases i with
    | zero =>
      simp only [addOverlapGo, List.get?_cons_zero, List.get?_cons_succ,
        Option.some.injEq] at ha hb hc
      cases rest with
      | nil => simp [addOverlapGo] at hb
      | cons c1 rest2 =>
        simp only [addOverlapGo, List.get?_cons_zero, Option.some.injEq] at hb hc
        rw [← ha, ← hb, ← hc]
    | succ n =>
      simp only [addOverlapGo, List.get?_cons_succ] at ha hb hc
      exact ih _ _ ha hb hc

theorem add_overlap_adjacent (tp : TextProcessor) (l : List Chunk)
    (i : Nat) (a b c : Chunk)
    (ha : (add_overlap tp l).get? i = some a)
    (hb : (add_overlap tp l).get? (i + 1) = some b)
    (hc : l.get? (i + 1) = some c) :
    b = overlapMod tp a.content c := by
  match l with
  | [] => simp [add_overlap] at ha
  | [x] =>
    simp only [add_overlap] at hb
    rcases i with _ | n <;> simp at hb
  | x :: y :: rest =>
    show b = overlapMod tp a.content c
    have hshape : add_overlap tp (x :: y :: rest)
        = x :: addOverlapGo tp x.content (y :: rest) := rfl
    rw [hshape] at ha hb
    cases i with
    | zero =>
      simp only [List.get?_cons_zero, List.get?_cons_succ, Option.some.injEq] at ha hb hc
      cases rest with
      | nil =>
        simp only [addOverlapGo, List.get?_cons_zero, Option.some.injEq] at hb hc
        rw [← ha, ← hb, ← hc]
      | cons z rest2 =>
        simp only [addOverlapGo, List.get?_cons_zero, Option.some.injEq] at hb hc
        rw [← ha, ← hb, ← hc]
    | succ n =>
      simp only [List.get?_cons_succ] at ha hb hc
      exact addOverlapGo_adjacent tp (y :: rest) x.content n a b c ha hb hc

/-! ### chunk_generic and chunk_markdown lemmas -/

theorem chunk_generic_singleton (tp : TextProcessor) (text : Text) (c : Chunk)
    (h : chunk_generic tp text = [c]) : c.content = pyStrip text := by
  unfold chunk_generic at h
  have hlen : (chunk_generic_raw tp text).length = 1 := by
    rw [← add_overlap_length tp, h]
    rfl
  obtain ⟨c0, hc0⟩ := List.length_eq_one.mp hlen
  rw [hc0] at h
  have hcc : c0 = c := by simpa [add_overlap] using h
  subst hcc
  by_cases hst : pyStrip text = []
  · rw [chunk_generic_raw, if_pos hst] at hc0
    exact absurd hc0 (by simp)
  · rw [chunk_generic_raw, if_neg hst] at hc0
    have hslen : (split_large_chunk tp text).length = 1 := by
      have hl := congrArg List.length hc0
      simpa using hl
    obtain ⟨s, hsv⟩ := List.length_eq_one.mp hslen
    rw [hsv] at hc0
    have henum : (([s] : List Text).enum.map
        (fun p => { content := p.2, chunk_index := p.1,
                    metadata := ChunkMeta.plain : Chunk })) =
        [{ content := s, chunk_index := 0, metadata := ChunkMeta.plain }] := rfl
    rw [henum] at hc0
    have hc0c : c0 = { content := s, chunk_index := 0, metadata := ChunkMeta.plain } := by
      have h2 : ({ content := s, chunk_index := 0, metadata := ChunkMeta.plain : Chunk }) = c0 := by
        simpa using hc0
      exact h2.symm
    rw [hc0c]
    exact split_large_chunk_singleton tp text s hsv

theorem mdLoop_no_heading (tp : TextProcessor) (rem : List Text) (idx : Nat)
    (st : MdState) (hh : ∀ line ∈ rem, isHeading line = false)
    (hlen : (joinNl (st.current ++ rem)).length ≤ tp.chunk_size * 2) :
    mdLoop tp rem idx st = { st with current := st.current ++ rem } := by
  induction rem generalizing idx st with
  | nil => simp [mdLoop]
  | cons line rest ih =>
    have hline : isHeading line = false := hh line (by simp)
    have hrest : ∀ l ∈ rest, isHeading l = false := fun l hl => hh l (by simp [hl])
    have hb : ¬ (joinNl (st.current ++ [line])).length > tp.chunk_size * 2 := by
      have h1 : (joinNl (st.current ++ [line])).length
          ≤ (joinNl ((st.current ++ [line]) ++ rest)).length := by
        unfold joinNl
        exact joinSep_length_le
      rw [List.append_assoc, List.singleton_append] at h1
      omega
    have hstep : mdStep tp st idx line = { st with current := st.current ++ [line] } := by
      unfold mdStep
      rw [hline]
      simp only [Bool.false_eq_true, if_false]
      rw [if_neg hb]
    show mdLoop tp rest (idx + 1) (mdStep tp st idx line) = _
    rw [hstep]
    rw [ih (idx + 1) _ hrest (by rw [List.append_assoc, List.singleton_append]; exact hlen)]
    simp

/-! ### classify_pass lemmas -/

theorem get_file_info_path (fs : FS) (p : Path) (fi : FileInfo)
    (h : get_file_info fs p = some fi) : fi.path = p := by
  unfold get_file_info at h
  cases hs : fs.stat p with
  | none => rw [hs] at h; exact absurd h (by simp)
  | some st =>
    rw [hs] at h
    injection h with h2
    rw [← h2]

theorem classify_pass_cons_err (fs : FS) (force : Bool) (state : IndexState)
    (p : Path) (rest : List Path) (h : get_file_info fs p = Option.none) :
    classify_pass fs force state (p :: rest) = classify_pass fs force state rest := by
  simp [classify_pass, h]

theorem classify_pass_cons_new (fs : FS) (force : Bool) (state : IndexState)
    (p : Path) (rest : List Path) (fi : FileInfo)
    (hfi : get_file_info fs p = some fi) (hcl : classify_file force state fi = .isNew) :
    classify_pass fs force state (p :: rest)
      = (fi :: (classify_pass fs force state rest).1,
         (classify_pass fs force state rest).2.1 + 1,
         (classify_pass fs force state rest).2.2.1,
         (classify_pass fs force state rest).2.2.2) := by
  simp [classify_pass, hfi, hcl]

theorem classify_pass_cons_upd (fs : FS) (force : Bool) (state : IndexState)
    (p : Path) (rest : List Path) (fi : FileInfo)
    (hfi : get_file_info fs p = some fi)
    (hcl : classify_file force state fi = .isUpdated) :
    classify_pass fs force state (p :: rest)
      = (fi :: (classify_pass fs force state rest).1,
         (classify_pass fs force state rest).2.1,
         (classify_pass fs force state rest).2.2.1 + 1,
         (classify_pass fs force state rest).2.2.2) := by
  simp [classify_pass, hfi, hcl]

theorem classify_pass_cons_unch (fs : FS) (force : Bool) (state : IndexState)
    (p : Path) (rest : List Path) (fi : FileInfo)
    (hfi : get_file_info fs p = some fi)
    (hcl : classify_file force state fi = .isUnchanged) :
    classify_pass fs force state (p :: rest)
      = ((classify_pass fs force state rest).1,
         (classify_pass fs force state rest).2.1,
         (classify_pass fs force state rest).2.2.1,
         (classify_pass fs force state rest).2.2.2 + 1) := by
  simp [classify_pass, hfi, hcl]

theorem classify_pass_toProc_mem (fs : FS) (force : Bool) (state : IndexState)
    (paths : List Path) (q : FileInfo)
    (hq : q ∈ (classify_pass fs force state paths).1) :
    q.path ∈ paths ∧ get_file_info fs q.path = some q
      ∧ classify_file force state q ≠ .isUnchanged := by
  induction paths with
  | nil => simp [classify_pass] at hq
  | cons p rest ih =>
    cases hg : get_file_info fs p with
    | none =>
      rw [classify_pass_cons_err fs force state p rest hg] at hq
      obtain ⟨h1, h2, h3⟩ := ih hq
      exact ⟨List.mem_cons_of_mem p h1, h2, h3⟩
    | some fi =>
      cases hcl : classify_file force state fi with
      | isNew =>
        rw [classify_pass_cons_new fs force state p rest fi hg hcl] at hq
        rcases List.mem_cons.mp hq with h | h
        · subst h
          refine ⟨?_, ?_, ?_⟩
          · rw [get_file_info_path fs p q hg]; simp
          · rw [get_file_info_path fs p q hg]; exact hg
          · rw [hcl]; simp
        · obtain ⟨h1, h2, h3⟩ := ih h
          exact ⟨List.mem_cons_of_mem p h1, h2, h3⟩
      | isUpdated =>
        rw [classify_pass_cons_upd fs force state p rest fi hg hcl] at hq
        rcases List.mem_cons.mp hq with h | h
        · subst h
          refine ⟨?_, ?_, ?_⟩
          · rw [get_file_info_path fs p q hg]; simp
          · rw [get_file_info_path fs p q hg]; exact hg
          · rw [hcl]; simp
        · obtain ⟨h1, h2, h3⟩ := ih h
          exact ⟨List.mem_cons_of_mem p h1, h2, h3⟩
      | isUnchanged =>
        rw [classify_pass_cons_unch fs force state p rest fi hg hcl] at hq
        obtain ⟨h1, h2, h3⟩ := ih hq
        exact ⟨List.mem_cons_of_mem p h1, h2, h3⟩

theorem classify_pass_mem_of (fs : FS) (force : Bool) (state : IndexState)
    (paths : List Path) (p : Path) (fi : FileInfo)
    (hp : p ∈ paths) (hfi : get_file_info fs p = some fi)
    (hcl : classify_file force state fi ≠ .isUnchanged) :
    fi ∈ (classify_pass fs force state paths).1 := by
  induction paths with
  | nil => simp at hp
  | cons q rest ih =>
    rcases List.mem_cons.mp hp with h | h
    · subst h
      cases hclv : classify_file force state fi with
      | isNew => rw [classify_pass_cons_new fs force state p rest fi hfi hclv]; simp
      | isUpdated => rw [classify_pass_cons_upd fs force state p rest fi hfi hclv]; simp
      | isUnchanged => exact absurd hclv hcl
    · have hmem := ih h
      cases hg : get_file_info fs q with
      | none => rw [classify_pass_cons_err fs force state q rest hg]; exact hmem
      | some fj =>
        cases hclj : classify_file force state fj with
        | isNew =>
          rw [classify_pass_cons_new fs force state q rest fj hg hclj]
          exact List.mem_cons_of_mem fj hmem
        | isUpdated =>
          rw [classify_pass_cons_upd fs force state q rest fj hg hclj]
          exact List.mem_cons_of_mem fj hmem
        | isUnchanged =>
          rw [classify_pass_cons_unch fs force state q rest fj hg hclj]
          exact hmem

theorem classify_pass_all_unchanged (fs : FS) (force : Bool) (state : IndexState)
    (paths : List Path)
    (h : ∀ p ∈ paths, ∃ fi, get_file_info fs p = some fi
      ∧ classify_file force state fi = .isUnchanged) :
    classify_pass fs force state paths = ([], 0, 0, paths.length) := by
  induction paths with
  | nil => rfl
  | cons p rest ih =>
    obtain ⟨fi, hfi, hcl⟩ := h p (by simp)
    rw [classify_pass_cons_unch fs force state p rest fi hfi hcl,
      ih (fun q hq => h q (List.mem_cons_of_mem p hq))]
    simp

/-! ### process_files lemmas -/

theorem process_files_cons (tp : TextProcessor) (fs : FS) (fi : FileInfo)
    (rest : List FileInfo) (acc : List DocRecord) (state : IndexState) :
    process_files tp fs (fi :: rest) acc state =
      if fs.rawContents fi.path = [] then process_files tp fs rest acc state
      else process_files tp fs rest
        ((fs.rawContents fi.path).foldl (fun a seg =>
          (chunk_content tp seg.content (fs.isMd fi.path)).foldl (fun a2 c =>
            a2 ++ [{ content := c.content, file_path := fi.path, chunk_index := a2.length,
                     metadata := { file_size := fi.size, file_mtime := fi.mtime,
                                   seg := seg.metadata, chunkMeta := c.metadata } }]) a) acc)
        (updateState state fi.path fi) := rfl

theorem process_files_state_notmem (tp : TextProcessor) (fs : FS)
    (l : List FileInfo) (acc : List DocRecord) (state : IndexState) (p : Path)
    (h : ∀ q ∈ l, q.path ≠ p) :
    (process_files tp fs l acc state).2 p = state p := by
  induction l generalizing acc state with
  | nil => rfl
  | cons fi rest ih =>
    rw [process_files_cons]
    by_cases hraw : fs.rawContents fi.path = []
    · rw [if_pos hraw]
      exact ih _ _ (fun q hq => h q (List.mem_cons_of_mem fi hq))
    · rw [if_neg hraw]
      rw [ih _ _ (fun q hq => h q (List.mem_cons_of_mem fi hq))]
      unfold updateState
      rw [if_neg (fun hpq => (h fi (by simp)) hpq.symm)]

theorem process_files_state_stable (tp : TextProcessor) (fs : FS)
    (l : List FileInfo) (acc : List DocRecord) (state : IndexState) (p : Path)
    (fi : FileInfo) (h : ∀ q ∈ l, q.path = p → q = fi)
    (hst : state p = some fi) :
    (process_files tp fs l acc state).2 p = some fi := by
  induction l generalizing acc state with
  | nil => exact hst
  | cons q rest ih =>
    rw [process_files_cons]
    by_cases hraw : fs.rawContents q.path = []
    · rw [if_pos hraw]
      exact ih _ _ (fun r hr => h r (List.mem_cons_of_mem q hr)) hst
    · rw [if_neg hraw]
      refine ih _ _ (fun r hr => h r (List.mem_cons_of_mem q hr)) ?_
      unfold updateState
      by_cases hq : p = q.path
      · rw [if_pos hq]
        rw [h q (by simp) hq.symm]
      · rw [if_neg hq]
        exact hst

theorem process_files_state_mem (tp : TextProcessor) (fs : FS)
    (l : List FileInfo) (acc : List DocRecord) (state : IndexState) (p : Path)
    (fi : FileInfo) (h : ∀ q ∈ l, q.path = p → q = fi)
    (hmem : fi ∈ l) (hpath : fi.path = p) (hraw : fs.rawContents p ≠ []) :
    (process_files tp fs l acc state).2 p = some fi := by
  induction l generalizing acc state with
  | nil => simp at hmem
  | cons q rest ih =>
    rw [process_files_cons]
    by_cases hq : q.path = p
    · have hqfi : q = fi := h q (by simp) hq
      subst hqfi
      rw [if_neg (by rw [hpath]; exact hraw)]
      refine process_files_state_stable tp fs rest _ _ p q
        (fun r hr => h r (List.mem_cons_of_mem q hr)) ?_
      unfold updateState
      rw [if_pos hpath.symm]
    · have hfir : fi ∈ rest := by
        rcases List.mem_cons.mp hmem with h1 | h1
        · exact absurd (h1 ▸ hpath) hq
        · exact h1
      by_cases hrawq : fs.rawContents q.path = []
      · rw [if_pos hrawq]
        exact ih _ _ (fun r hr => h r (List.mem_cons_of_mem q hr)) hfir
      · rw [if_neg hrawq]
        exact ih _ _ (fun r hr => h r (List.mem_cons_of_mem q hr)) hfir

theorem docFold_mem (fi : FileInfo) (seg : RawSeg) (pcs : List Chunk)
    (a : List DocRecord) (d : DocRecord)
    (hd : d ∈ pcs.foldl (fun a2 c =>
      a2 ++ [{ content := c.content, file_path := fi.path, chunk_index := a2.length,
               metadata := { file_size := fi.size, file_mtime := fi.mtime,
                             seg := seg.metadata, chunkMeta := c.metadata } }]) a) :
    d ∈ a ∨ d.file_path = fi.path := by
  induction pcs generalizing a with
  | nil => exact Or.inl hd
  | cons c pcs ih =>
    rcases ih _ hd with h | h
    · rcases List.mem_append.mp h with h2 | h2
      · exact Or.inl h2
      · right
        simp only [List.mem_singleton] at h2
        rw [h2]
    · exact Or.inr h

theorem segFold_mem (tp : TextProcessor) (fs : FS) (fi : FileInfo)
    (raw : List RawSeg) (acc : List DocRecord) (d : DocRecord)
    (hd : d ∈ raw.foldl (fun a seg =>
      (chunk_content tp seg.content (fs.isMd fi.path)).foldl (fun a2 c =>
        a2 ++ [{ content := c.content, file_path := fi.path, chunk_index := a2.length,
                 metadata := { file_size := fi.size, file_mtime := fi.mtime,
                               seg := seg.metadata, chunkMeta := c.metadata } }]) a) acc) :
    d ∈ acc ∨ d.file_path = fi.path := by
  induction raw generalizing acc with
  | nil => exact Or.inl hd
  | cons seg raw ih =>
    rcases ih _ hd with h | h
    · exact docFold_mem fi seg _ _ d h
    · exact Or.inr h

theorem process_files_batch_mem (tp : TextProcessor) (fs : FS)
    (l : List FileInfo) (acc : List DocRecord) (state : IndexState) (d : DocRecord)
    (hd : d ∈ (process_files tp fs l acc state).1) :
    d ∈ acc ∨ ∃ q ∈ l, d.file_path = q.path := by
  induction l generalizing acc state with
  | nil => exact Or.inl hd
  | cons fi rest ih =>
    rw [process_files_cons] at hd
    by_cases hraw : fs.rawContents fi.path = []
    · rw [if_pos hraw] at hd
      rcases ih _ _ hd with h | ⟨q, hq1, hq2⟩
      · exact Or.inl h
      · exact Or.inr ⟨q, List.mem_cons_of_mem fi hq1, hq2⟩
    · rw [if_neg hraw] at hd
      rcases ih _ _ hd with h | ⟨q, hq1, hq2⟩
      · rcases segFold_mem tp fs fi _ _ d h with h2 | h2
        · exact Or.inl h2
        · exact Or.inr ⟨fi, by simp, h2⟩
      · exact Or.inr ⟨q, List.mem_cons_of_mem fi hq1, hq2⟩

/-- Function `classify_file` only reads the state at the file's own path. -/
theorem classify_file_congr (force : Bool) (st1 st2 : IndexState) (fi : FileInfo)
    (h : st1 fi.path = st2 fi.path) :
    classify_file force st1 fi = classify_file force st2 fi := by
  unfold classify_file
  rw [h]

/-- A file whose stored record equals its current snapshot is unchanged. -/
theorem classify_file_self (st : IndexState) (fi : FileInfo)
    (h : st fi.path = some fi) :
    classify_file false st fi = .isUnchanged := by
  unfold classify_file
  rw [h]
  simp

/-- After one non-forced run whose scanned files are all statable and
extractable, every scanned file classifies as Unchanged against the
resulting index state. -/
theorem run1_state_unchanged (tp : TextProcessor) (fs : FS) (st0 : IndexState)
    (h1 : ∀ p ∈ scan_directory fs, (get_file_info fs p).isSome)
    (h2 : ∀ p ∈ scan_directory fs, fs.rawContents p ≠ []) :
    ∀ p ∈ scan_directory fs, ∃ fi, get_file_info fs p = some fi
      ∧ classify_file false (ingest_directory tp fs st0 false).state fi = .isUnchanged := by
  intro p hp
  obtain ⟨fi, hfi⟩ := Option.isSome_iff_exists.mp (h1 p hp)
  refine ⟨fi, hfi, ?_⟩
  have hpath : fi.path = p := get_file_info_path fs p fi hfi
  have hpaths : ¬ scan_directory fs = [] := by
    intro h
    rw [h] at hp
    simp at hp
  by_cases hcp : (classify_pass fs false st0 (scan_directory fs)).1 = []
  · have hstate : (ingest_directory tp fs st0 false).state = st0 := by
      unfold ingest_directory
      rw [if_neg hpaths, if_pos hcp]
    rw [hstate]
    by_cases hclv : classify_file false st0 fi = .isUnchanged
    · exact hclv
    · have hmem := classify_pass_mem_of fs false st0 _ p fi hp hfi hclv
      rw [hcp] at hmem
      simp at hmem
  · have hstate : (ingest_directory tp fs st0 false).state
        = (process_files tp fs (classify_pass fs false st0 (scan_directory fs)).1 [] st0).2 := by
      unfold ingest_directory
      rw [if_neg hpaths, if_neg hcp]
    rw [hstate]
    have hkey : ∀ q ∈ (classify_pass fs false st0 (scan_directory fs)).1,
        q.path = p → q = fi := by
      intro q hq hqp
      obtain ⟨_, hq2, _⟩ := classify_pass_toProc_mem fs false st0 _ q hq
      rw [hqp, hfi] at hq2
      injection hq2 with hq2
      exact hq2.symm
    by_cases hclv : classify_file false st0 fi = .isUnchanged
    · have hnot : ∀ q ∈ (classify_pass fs false st0 (scan_directory fs)).1, q.path ≠ p := by
        intro q hq hqp
        obtain ⟨_, _, hq3⟩ := classify_pass_toProc_mem fs false st0 _ q hq
        rw [hkey q hq hqp] at hq3
        exact hq3 hclv
      have hst := process_files_state_notmem tp fs _ [] st0 p hnot
      rw [classify_file_congr false _ st0 fi (by rw [hpath]; exact hst)]
      exact hclv
    · have hmem := classify_pass_mem_of fs false st0 _ p fi hp hfi hclv
      have hst := process_files_state_mem tp fs _ [] st0 p fi hkey hmem hpath (h2 p hp)
      exact classify_file_self _ fi (by rw [hpath]; exact hst)

/-- A non-forced run over a state against which every scanned file is
Unchanged skips everything and emits nothing. -/
theorem ingest_all_unchanged (tp : TextProcessor) (fs : FS) (st : IndexState)
    (hpaths : ¬ scan_directory fs = [])
    (hcp : classify_pass fs false st (scan_directory fs)
      = ([], 0, 0, (scan_directory fs).length)) :
    ingest_directory tp fs st false
      = { stats := ⟨(scan_directory fs).length, 0, 0, (scan_directory fs).length, 0⟩,
          state := st, batch := [] } := by
  unfold ingest_directory
  rw [if_neg hpaths, hcp]
  rfl

/-! ### Claims -/

/-- C5: the change detector classifies a scanned file as New exactly when
its path is absent from the index state or a forced reindex was requested;
as Updated exactly when (not forced and) the path is present and the
snapshot's modified time is strictly greater than the stored one or the
content hash differs; and as Unchanged exactly when (not forced and) the
path is present and neither condition holds. -/
theorem C5_classification (force : Bool) (st : IndexState) (fi : FileInfo) :
    (classify_file force st fi = .isNew ↔ (force = true ∨ st fi.path = Option.none))
  ∧ (classify_file force st fi = .isUpdated ↔ (force = false ∧ ∃ old, st fi.path = some old
      ∧ (fi.mtime > old.mtime ∨ fi.hash ≠ old.hash)))
  ∧ (classify_file force st fi = .isUnchanged ↔ (force = false ∧ ∃ old, st fi.path = some old
      ∧ ¬(fi.mtime > old.mtime ∨ fi.hash ≠ old.hash))) := by
  unfold classify_file
  cases force with
  | true => simp
  | false =>
    cases hst : st fi.path with
    | none => simp
    | some old =>
      by_cases hc : fi.mtime > old.mtime ∨ fi.hash ≠ old.hash
      · simp [hst, hc]
        intro hle
        rcases hc with h | h
        · exact absurd hle (not_le.mpr h)
        · exact h
      · simp [hst, hc]
        push_neg at hc
        exact ⟨hc.1, hc.2⟩

/-- C9: when the root does not exist, is not a directory, or contains no
candidate files, `ingest_directory` returns the zeroed stats, leaves the
index state untouched and emits no batch. -/
theorem C9_empty_scan (tp : TextProcessor) (fs : FS) (st : IndexState) (force : Bool)
    (h : fs.rootExists = false ∨ fs.rootIsDir = false ∨ fs.files = []) :
    ingest_directory tp fs st force =
      { stats := ⟨0, 0, 0, 0, 0⟩, state := st, batch := [] } := by
  have hscan : scan_directory fs = [] := by
    unfold scan_directory
    rcases h with h | h | h
    · rw [if_neg (by simp [h])]
    · rw [if_neg (by simp [h])]
    · by_cases hb : fs.rootExists = true ∧ fs.rootIsDir = true
      · rw [if_pos hb]; exact h
      · rw [if_neg hb]
  unfold ingest_directory
  rw [if_pos hscan]

/-- C9 witness: a root that does not exist yields the zeroed result. -/
theorem C9_witness :
    (fsEmpty.rootExists = false ∨ fsEmpty.rootIsDir = false ∨ fsEmpty.files = [])
    ∧ ingest_directory tpDefault fsEmpty stEmpty false =
        { stats := ⟨0, 0, 0, 0, 0⟩, state := stEmpty, batch := [] } :=
  ⟨Or.inl rfl, C9_empty_scan tpDefault fsEmpty stEmpty false (Or.inl rfl)⟩

/-- C10: the overlap pass preserves the length of the chunk list, every
chunk's `chunk_index` and `metadata`, and the first chunk itself, and it is
the identity on lists of length at most one. -/
theorem C10_overlap_frame (tp : TextProcessor) (l : List Chunk) :
    (add_overlap tp l).length = l.length
  ∧ (∀ i : Nat, ((add_overlap tp l).get? i).map Chunk.chunk_index
        = (l.get? i).map Chunk.chunk_index
      ∧ ((add_overlap tp l).get? i).map Chunk.metadata
        = (l.get? i).map Chunk.metadata)
  ∧ (add_overlap tp l).get? 0 = l.get? 0
  ∧ (l.length ≤ 1 → add_overlap tp l = l) := by
  refine ⟨add_overlap_length tp l,
    fun i => ⟨add_overlap_get?_index tp l i, add_overlap_get?_meta tp l i⟩,
    add_overlap_get?_zero tp l, ?_⟩
  intro hl
  match l with
  | [] => rfl
  | [c] => rfl
  | c :: d :: rest => simp at hl

/-- C10 witness: the pass is the identity on a one-chunk list. -/
theorem C10_witness : [chunkA].length ≤ 1 ∧ add_overlap tpDefault [chunkA] = [chunkA] :=
  ⟨by decide, (C10_overlap_frame tpDefault [chunkA]).2.2.2 (by decide)⟩

/-- C8: chunking the scenario markdown text with `chunkSize = 100`,
`minChunkSize = 20` yields at least 2 chunks and the second chunk's heading
metadata is the heading line `## B`. -/
theorem C8_scenario :
    2 ≤ (chunk_markdown tp8 text8).length
    ∧ ((chunk_markdown tp8 text8).get? 1).map (fun c => c.metadata.headingOf)
        = some (some (strT "## B")) := by
  constructor
  · decide
  · decide

/-- C1 counterexample: with `chunkSize = 10, overlap = 2, minChunkSize = 5`
the generic chunker emits two chunks for `"ab\n\ncccccccccccc"`, the first of
trimmed length 2 < 5, refuting the minimum-size invariant as stated. -/
theorem C1_counterexample :
    (∃ c ∈ chunk_generic tpC1 textC1,
      (pyStrip c.content).length < tpC1.min_chunk_size)
    ∧ (chunk_generic tpC1 textC1).length ≠ 1 := by
  constructor
  · exact ⟨⟨strT "ab", 0, ChunkMeta.plain⟩, by decide, by decide⟩
  · decide

/-- C1 amended: the paragraph-splitting path enforces no minimum, so a
multi-chunk result may contain chunks with trimmed length below
`minChunkSize`; what does hold is the single-chunk exception: whenever the
generic chunker emits exactly one chunk, that chunk is the full trimmed
input text. -/
theorem C1_generic_singleton (tp : TextProcessor) (text : Text) (c : Chunk)
    (h : chunk_generic tp text = [c]) : c.content = pyStrip text :=
  chunk_generic_singleton tp text c h

/-- C1 witness: a short text yields exactly one chunk carrying the full
trimmed text. -/
theorem C1_witness :
    chunk_generic tpDefault (strT "hi") = [⟨strT "hi", 0, ChunkMeta.plain⟩]
    ∧ (⟨strT "hi", 0, ChunkMeta.plain⟩ : Chunk).content = pyStrip (strT "hi") :=
  ⟨by decide, C1_generic_singleton tpDefault (strT "hi") _ (by decide)⟩

/-- C3 counterexample: `"short"` is non-whitespace, yet the heading-aware
chunker returns no chunks under the default configuration — there is no
fallback single chunk with a generic heading. -/
theorem C3_counterexample :
    pyStrip (strT "short") ≠ [] ∧ chunk_markdown tpDefault (strT "short") = [] := by
  constructor
  · decide
  · decide

/-- C3 amended: the heading-aware chunker has no fallback: for an input
with no heading line, total length at most `2 * chunkSize`, and trimmed
length below `minChunkSize`, it returns the empty chunk list even when the
trimmed input is non-empty. -/
theorem C3_no_fallback (tp : TextProcessor) (text : Text)
    (hh : ∀ line ∈ splitNl text, isHeading line = false)
    (hlen : text.length ≤ tp.chunk_size * 2)
    (hmin : (pyStrip text).length < tp.min_chunk_size) :
    chunk_markdown tp text = [] := by
  have hbound : (joinNl (([] : List Text) ++ splitNl text)).length ≤ tp.chunk_size * 2 := by
    rw [List.nil_append]
    rw [show joinNl (splitNl text) = text from splitNl_join]
    exact hlen
  have hrun := mdLoop_no_heading tp (splitNl text) 1
    { chunks := [], current := [], heading := strT "Introduction", idx := 0, startLine := 1 }
    hh hbound
  unfold chunk_markdown chunk_markdown_raw
  rw [hrun]
  unfold mdFinal
  rw [if_neg (by
    simp only [List.nil_append]
    rw [show joinNl (splitNl text) = text from splitNl_join]
    omega)]
  rfl

/-- C3 witness: the amended statement applied at `"short"`. -/
theorem C3_witness :
    (∀ line ∈ splitNl (strT "short"), isHeading line = false)
    ∧ (strT "short").length ≤ tpDefault.chunk_size * 2
    ∧ (pyStrip (strT "short")).length < tpDefault.min_chunk_size
    ∧ chunk_markdown tpDefault (strT "short") = [] :=
  ⟨by decide, by decide, by decide,
   C3_no_fallback tpDefault (strT "short") (by decide) (by decide) (by decide)⟩

/-- C2 counterexample: for the heading-aware output on `textC2`, chunk 1's
pre-overlap content has length 3, below `overlap = 4`, yet the overlap pass
still modifies chunk 2 (the pass reads the already-modified predecessor),
refuting the claim's unchanged clause and its pre-overlap reading. -/
theorem C2_counterexample :
    ((chunk_markdown_raw tpC2 textC2).get? 1).map (fun c => c.content.length) = some 3
    ∧ 3 < tpC2.overlap
    ∧ ((add_overlap tpC2 (chunk_markdown_raw tpC2 textC2)).get? 2).map Chunk.content
        ≠ ((chunk_markdown_raw tpC2 textC2).get? 2).map Chunk.content := by
  refine ⟨by decide, by decide, by decide⟩

/-- C2 amended: after the overlap pass, chunk `i+1` equals its pre-overlap
value with the trailing `overlap` characters of the *post-pass* content of
chunk `i` and a blank line prepended whenever that post-pass content is
strictly longer than `overlap`; otherwise chunk `i+1` is left unchanged. -/
theorem C2_overlap_adjacent (tp : TextProcessor) (l : List Chunk) (i : Nat)
    (a b c : Chunk)
    (ha : (add_overlap tp l).get? i = some a)
    (hb : (add_overlap tp l).get? (i + 1) = some b)
    (hc : l.get? (i + 1) = some c) :
    (tp.overlap < a.content.length →
      b.content = pyTakeLast tp.overlap a.content ++ nlnl ++ c.content)
    ∧ (¬ tp.overlap < a.content.length → b = c) := by
  have h := add_overlap_adjacent tp l i a b c ha hb hc
  constructor
  · intro hov
    rw [h]
    unfold overlapMod
    rw [if_pos hov]
  · intro hov
    rw [h]
    unfold overlapMod
    rw [if_neg hov]

/-- C2 witness: the amended statement applied to a concrete two-chunk list
with a long first chunk. -/
theorem C2_witness :
    tpC1.overlap < chunkA.content.length
    ∧ chunkB2.content = pyTakeLast tpC1.overlap chunkA.content ++ nlnl ++ chunkB.content :=
  ⟨by decide,
   (C2_overlap_adjacent tpC1 [chunkA, chunkB] 0 chunkA chunkB2 chunkB
      (by decide) (by decide) (by decide)).1 (by decide)⟩

/-- C4 counterexample: on `fsReadFail` the content read fails while `stat`
succeeds; `get_file_info` still returns a fingerprint (with the
empty-stream digest) and the file stays in `files_to_process` — it is not
treated as unavailable and excluded, as the claim states. -/
theorem C4_counterexample :
    fsReadFail.read 0 = Option.none
    ∧ get_file_info fsReadFail 0 = some ⟨0, 7, 3, 0⟩
    ∧ (classify_pass fsReadFail false stEmpty (scan_directory fsReadFail)).1 ≠ [] := by
  refine ⟨rfl, by decide, by decide⟩

/-- C4 amended: the content hash is computed over the file's full contents
when reading succeeds; when reading fails the exception is swallowed and
the fingerprint carries the digest of the empty stream, the file remaining
classified and processed; only a `stat` failure makes `get_file_info`
raise, which `ingest_directory` catches per file (no batch-wide error). -/
theorem C4_fingerprint (fs : FS) (p : Path) :
    (∀ s, fs.stat p = some s →
      get_file_info fs p = some ⟨p, s.size, s.mtime, fs.hashFn ((fs.read p).getD [])⟩)
    ∧ (fs.stat p = Option.none → get_file_info fs p = Option.none) := by
  constructor
  · intro s hs
    unfold get_file_info
    rw [hs]
    cases hr : fs.read p with
    | none => rfl
    | some content => rfl
  · intro hs
    unfold get_file_info
    rw [hs]

/-- C4 witness: the fingerprint equation at the read-failing filesystem. -/
theorem C4_witness :
    fsReadFail.stat 0 = some ⟨7, 3⟩
    ∧ get_file_info fsReadFail 0
        = some ⟨0, 7, 3, fsReadFail.hashFn ((fsReadFail.read 0).getD [])⟩ :=
  ⟨rfl, (C4_fingerprint fsReadFail 0).1 ⟨7, 3⟩ rfl⟩

/-- C6: a file classified Unchanged contributes nothing to the run: its
index-state entry is left exactly as it was and no record of the emitted
batch carries its path. -/
theorem C6_unchanged_frame (tp : TextProcessor) (fs : FS) (st : IndexState)
    (force : Bool) (p : Path) (fi : FileInfo)
    (hfi : get_file_info fs p = some fi)
    (hcl : classify_file force st fi = .isUnchanged) :
    (ingest_directory tp fs st force).state p = st p
    ∧ ∀ d ∈ (ingest_directory tp fs st force).batch, d.file_path ≠ p := by
  have hnot : ∀ q ∈ (classify_pass fs force st (scan_directory fs)).1, q.path ≠ p := by
    intro q hq hqp
    obtain ⟨_, hq2, hq3⟩ := classify_pass_toProc_mem fs force st _ q hq
    rw [hqp, hfi] at hq2
    injection hq2 with hq2
    rw [hq2] at hcl
    exact hq3 hcl
  by_cases hpaths : scan_directory fs = []
  · constructor
    · unfold ingest_directory
      rw [if_pos hpaths]
    · unfold ingest_directory
      rw [if_pos hpaths]
      intro d hd
      simp at hd
  · by_cases hcp : (classify_pass fs force st (scan_directory fs)).1 = []
    · constructor
      · unfold ingest_directory
        rw [if_neg hpaths, if_pos hcp]
      · unfold ingest_directory
        rw [if_neg hpaths, if_pos hcp]
        intro d hd
        simp at hd
    · constructor
      · unfold ingest_directory
        rw [if_neg hpaths, if_neg hcp]
        exact process_files_state_notmem tp fs _ [] st p hnot
      · unfold ingest_directory
        rw [if_neg hpaths, if_neg hcp]
        intro d hd hdp
        rcases process_files_batch_mem tp fs _ _ _ d hd with h | ⟨q, hq1, hq2⟩
        · simp at h
        · exact hnot q hq1 (hq2.symm.trans hdp)

/-- C6 witness: a one-file run over an index state that already holds the
file's current fingerprint. -/
theorem C6_witness :
    get_file_info fsUnch 0 = some fiU
    ∧ classify_file false stU fiU = .isUnchanged
    ∧ (ingest_directory tpDefault fsUnch stU false).state 0 = stU 0
    ∧ ∀ d ∈ (ingest_directory tpDefault fsUnch stU false).batch, d.file_path ≠ 0 :=
  ⟨by decide, by decide,
   (C6_unchanged_frame tpDefault fsUnch stU false 0 fiU (by decide) (by decide)).1,
   (C6_unchanged_frame tpDefault fsUnch stU false 0 fiU (by decide) (by decide)).2⟩

/-- C7 counterexample: a directory with one statable file whose extraction
yields no segments: the file's index-state entry is never written, so the
second identical run re-classifies it as New and `skippedFiles` (0) differs
from `totalFiles` (1). -/
theorem C7_counterexample :
    (ingest_directory tpDefault fsEmptyRaw
        (ingest_directory tpDefault fsEmptyRaw stEmpty false).state false).stats.skipped_files
      ≠ (ingest_directory tpDefault fsEmptyRaw
        (ingest_directory tpDefault fsEmptyRaw stEmpty false).state false).stats.total_files := by
  decide

/-- C7 amended: on the second of two non-forced runs over an unchanged
filesystem, `skippedFiles = totalFiles` and `totalChunks = 0` hold provided
every scanned file's metadata is statable and its extraction yields at
least one raw segment; a file yielding zero segments is never recorded in
the index state and is re-classified New on every run. -/
theorem C7_second_run (tp : TextProcessor) (fs : FS) (st0 : IndexState)
    (h1 : ∀ p ∈ scan_directory fs, (get_file_info fs p).isSome)
    (h2 : ∀ p ∈ scan_directory fs, fs.rawContents p ≠ []) :
    (ingest_directory tp fs (ingest_directory tp fs st0 false).state false).stats.skipped_files
      = (ingest_directory tp fs (ingest_directory tp fs st0 false).state false).stats.total_files
    ∧ (ingest_directory tp fs (ingest_directory tp fs st0 false).state false).stats.total_chunks
      = 0 := by
  by_cases hpaths : scan_directory fs = []
  · have hzero : ∀ st : IndexState, ingest_directory tp fs st false
        = { stats := ⟨0, 0, 0, 0, 0⟩, state := st, batch := [] } := by
      intro st
      unfold ingest_directory
      rw [if_pos hpaths]
    simp [hzero]
  · have hall := run1_state_unchanged tp fs st0 h1 h2
    have hcp2 := classify_pass_all_unchanged fs false
      ((ingest_directory tp fs st0 false).state) (scan_directory fs) hall
    rw [ingest_all_unchanged tp fs _ hpaths hcp2]
    exact ⟨rfl, rfl⟩

/-- C7 witness: a one-file directory whose file reads and extracts fine. -/
theorem C7_witness :
    (∀ p ∈ scan_directory fsUnch, (get_file_info fsUnch p).isSome)
    ∧ (∀ p ∈ scan_directory fsUnch, fsUnch.rawContents p ≠ [])
    ∧ ((ingest_directory tpDefault fsUnch
          (ingest_directory tpDefault fsUnch stEmpty false).state false).stats.skipped_files
        = (ingest_directory tpDefault fsUnch
          (ingest_directory tpDefault fsUnch stEmpty false).state false).stats.total_files
      ∧ (ingest_directory tpDefault fsUnch
          (ingest_directory tpDefault fsUnch stEmpty false).state false).stats.total_chunks
        = 0) :=
  ⟨by decide, by decide, C7_second_run tpDefault fsUnch stEmpty (by decide) (by decide)⟩

end Ingest
